import Mathlib

/-!
Shallow embedding of the watcher-agent core of the nomad monorepo, covering:

* `chains/nomad-substrate/src/client.rs` — `NomadOnlineClient::get_block_number`,
  `storage_fetch`, `fetch_sorted_updates_for_block`,
  `fetch_sorted_messages_for_block` and the free function `sort_update_events`;
* `nomad-base/src/replica.rs` — the blocking lookups
  `CachingReplica::signed_update_by_old_root` / `signed_update_by_new_root`;
* `tools/killswitch/src/output.rs` — `impl From<Error> for Message` and
  `build_output_message`.

Modelling conventions: 32-byte digests (`H256`) are natural numbers (the code
only ever compares them for equality); a Rust `HashMap` built by `collect` is
modelled through its lookup function (a later insert overwrites an earlier
one); a `panic!`/`expect` is an `Option.none` result; async functions are pure
functions of the data their RPC calls return, with co-operative polling loops
given an explicit poll budget (`fuel`).
-/

namespace Spec2Proof

/-- 32-byte digest, `ethers_core::types::H256`. -/
abbrev H256 := Nat

/-! ## `sort_update_events` (client.rs 157-191) and its callers -/

/-- `avail_subxt::api::nomad_home::events::Update`: the fields used by
`client.rs` — `home_domain`, `previous_root`, `new_root`, `signature`. -/
structure UpdateEvent where
  home_domain : Nat
  previous_root : H256
  new_root : H256
  signature : List Nat
  deriving DecidableEq

/-- Lookup in the `HashMap` obtained by collecting `(f e, e.clone())` pairs
from `update_events` in iteration order (client.rs 166-173): a later insert
overwrites an earlier one, so a lookup returns the **last** event whose key
matches. -/
def hashMapGet (f : UpdateEvent → H256) (update_events : List UpdateEvent)
    (k : H256) : Option UpdateEvent :=
  update_events.reverse.find? (fun e => f e == k)

/-- `contains_key` on the same `HashMap`: some collected event has key `k`. -/
def hashMapContains (f : UpdateEvent → H256) (update_events : List UpdateEvent)
    (k : H256) : Bool :=
  update_events.any (fun e => f e == k)

/-- The `for _ in update_events` loop of `sort_update_events`
(client.rs 183-188): one iteration per element of the iterated list; each
iteration reads the last element of `sorted` (never empty: it starts as
`vec![first_element]` and only grows, so the `unwrap` cannot fail and the
unreachable `none` branch leaves the state unchanged), looks its `new_root` up
in `map_previous_roots` and, on a hit, pushes the found event.  The second
component counts the iterations executed. -/
def sortLoop (map_previous_roots : H256 → Option UpdateEvent) :
    List UpdateEvent → List UpdateEvent → List UpdateEvent × Nat
  | [], sorted => (sorted, 0)
  | _ :: iter, sorted =>
    match sorted.getLast? with
    | none =>
      let r := sortLoop map_previous_roots iter sorted
      (r.1, r.2 + 1)
    | some next =>
      match map_previous_roots next.new_root with
      | some previous =>
        let r := sortLoop map_previous_roots iter (sorted ++ [previous])
        (r.1, r.2 + 1)
      | none =>
        let r := sortLoop map_previous_roots iter sorted
        (r.1, r.2 + 1)

/-- `sort_update_events` (client.rs 157-191).  `none` models the
`expect("there must be first element")` panic when no event of a multi-event
batch has a `previous_root` outside the batch's `new_root` key set. -/
def sort_update_events (update_events : List UpdateEvent) :
    Option (List UpdateEvent) :=
  if update_events.isEmpty then some []
  else if update_events.length == 1 then some update_events
  else
    match update_events.find?
        (fun e => !(hashMapContains (fun e2 => e2.new_root) update_events
          e.previous_root)) with
    | none => none
    | some first_element =>
      some (sortLoop
        (hashMapGet (fun e => e.previous_root) update_events)
        update_events [first_element]).1

/-- A batch is *chained* when each event's `previous_root` equals the
preceding event's `new_root`. -/
def chained : List UpdateEvent → Bool
  | [] => true
  | [_] => true
  | a :: b :: rest => (b.previous_root == a.new_root) && chained (b :: rest)

/-- The root sequence of a batch: the head's `previous_root` followed by every
event's `new_root`.  For a chained batch these are the roots
`r_0, r_1, …, r_n` traversed by the chain. -/
def rootsOf : List UpdateEvent → List H256
  | [] => []
  | a :: rest => a.previous_root :: (a :: rest).map (fun e => e.new_root)

/-- The side condition claimed for `sort_update_events` input batches, exactly
as stated: exactly one event whose `previous_root` is not the `new_root` of
any *other* event in the batch, and each event's `new_root` is the
`previous_root` of at most one *other* event.  Events are distinguished by
position (`enum`), so duplicates count separately. -/
def claimedChainCondition (update_events : List UpdateEvent) : Bool :=
  let ie := update_events.enum
  ((ie.filter (fun p =>
    ie.all (fun q => q.1 == p.1 || !(q.2.new_root == p.2.previous_root)))).length
      == 1)
  && ie.all (fun p =>
    decide ((ie.filter (fun q =>
      !(q.1 == p.1) && (q.2.previous_root == p.2.new_root))).length ≤ 1))

/-! ## `NomadOnlineClient::storage_fetch` (client.rs 39-63)

`get_block_number` returns the chain tip as a `u32`; `storage_fetch` computes
`final_block_number = timelag.map_or(tip, |lag| tip - lag as u32)` in `u32`
arithmetic (modelled with release-mode wrapping semantics), resolves it to a
block hash over RPC and reads the storage address at that hash. -/

/-- The RPC surface `storage_fetch` consumes: the current tip (a `u32`, so
`tip < 2 ^ 32`), the block-number → block-hash resolution, and the storage
read at an optional block hash. -/
structure ChainRpc where
  tip : Nat
  block_hash : Nat → Option H256
  storage_at : Option H256 → Option Nat

/-- `final_block_number` as computed inside `storage_fetch` (client.rs 53-55):
the identity for `timelag = None`, and the wrapping `u32` subtraction
`tip - lag` for `timelag = Some(lag)` (`lag` is a `u8`, so `lag < 2 ^ 32`). -/
def final_block_number (timelag : Option Nat) (block_number : Nat) : Nat :=
  match timelag with
  | none => block_number
  | some lag => (block_number + (2 ^ 32 - lag)) % 2 ^ 32

/-- `storage_fetch` (client.rs 48-63): read storage at the hash of
`final_block_number`. -/
def storage_fetch (timelag : Option Nat) (rpc : ChainRpc) : Option Nat :=
  rpc.storage_at (rpc.block_hash (final_block_number timelag rpc.tip))

/-! ## `CachingReplica` blocking lookups (replica.rs 129-156) -/

/-- `nomad_core::Update`. -/
structure Update where
  home_domain : Nat
  previous_root : H256
  new_root : H256
  deriving DecidableEq

/-- `nomad_core::SignedUpdate` (the signature is an opaque 65-byte value). -/
structure SignedUpdate where
  update : Update
  signature : Nat
  deriving DecidableEq

/-- `nomad_core::db::DbError`, opaque for these claims. -/
structure DbError where
  code : Nat
  deriving DecidableEq

/-- The `NomadDB` view used by `CachingReplica`.  The store is concurrently
written by the sync task, so each lookup is indexed by the poll instant at
which it is made: `update_by_previous_root t r` is what
`db.update_by_previous_root(r)` returns on the `t`-th poll. -/
structure NomadDB where
  update_by_previous_root : Nat → H256 → Except DbError (Option SignedUpdate)
  update_by_new_root : Nat → H256 → Except DbError (Option SignedUpdate)

/-- The polling loop shared by `signed_update_by_old_root` and
`signed_update_by_new_root` (replica.rs 136-141 and 149-154): poll the store;
propagate a `DbError` (the `?` operator), return `Ok(Some(update))` on a hit,
otherwise sleep 500 ms and re-poll.  `fuel` bounds the number of polls
observed; `none` means the loop was still waiting after `fuel` polls. -/
def await_update_lookup (lookup : Nat → Except DbError (Option SignedUpdate)) :
    Nat → Nat → Option (Except DbError (Option SignedUpdate))
  | 0, _ => none
  | fuel + 1, t =>
    match lookup t with
    | Except.error e => some (Except.error e)
    | Except.ok (some update) => some (Except.ok (some update))
    | Except.ok none => await_update_lookup lookup fuel (t + 1)

/-- `CachingReplica::signed_update_by_old_root` (replica.rs 132-142). -/
def signed_update_by_old_root (db : NomadDB) (old_root : H256) (fuel : Nat) :
    Option (Except DbError (Option SignedUpdate)) :=
  await_update_lookup (fun t => db.update_by_previous_root t old_root) fuel 0

/-- `CachingReplica::signed_update_by_new_root` (replica.rs 145-155). -/
def signed_update_by_new_root (db : NomadDB) (new_root : H256) (fuel : Nat) :
    Option (Except DbError (Option SignedUpdate)) :=
  await_update_lookup (fun t => db.update_by_new_root t new_root) fuel 0

/-! ## `fetch_sorted_messages_for_block` (client.rs 118-152) -/

/-- `avail_subxt::api::nomad_home::events::Dispatch`: the dispatch event as
emitted by the home pallet. -/
structure DispatchEvent where
  message_hash : H256
  leaf_index : Nat
  destination_and_nonce : Nat
  committed_root : H256
  message : List Nat
  deriving DecidableEq

/-- `nomad_core::RawCommittedMessage`. -/
structure RawCommittedMessage where
  leaf_index : Nat
  committed_root : H256
  message : List Nat
  deriving DecidableEq

/-- The field-by-field mapping from a dispatch event to a raw committed
message (client.rs 146-150). -/
def toRawCommittedMessage (ev : DispatchEvent) : RawCommittedMessage :=
  { leaf_index := ev.leaf_index
    committed_root := ev.committed_root
    message := ev.message }

/-- `fetch_sorted_messages_for_block` (client.rs 118-152), as a function of
the block's decoded `Dispatch` events: `sort_by_key(|d| d.leaf_index)`
(a stable sort, modelled by `mergeSort`) followed by the field mapping. -/
def fetch_sorted_messages_for_block (dispatch_events : List DispatchEvent) :
    List RawCommittedMessage :=
  (dispatch_events.mergeSort
      (fun a b => a.leaf_index ≤ b.leaf_index)).map toRawCommittedMessage

/-! ## killswitch output (tools/killswitch/src/output.rs) -/

/-- `killswitch::Channel`: a (home, replica) pair. -/
structure Channel where
  home : String
  replica : String
  deriving DecidableEq

/-- `killswitch::errors::Error` (not among the extracted sources; the output
construction only consumes its `Display` rendering, so it is modelled as that
rendering). -/
structure Error where
  display : String
  deriving DecidableEq

/-- `nomad_core::TxOutcome`. -/
structure TxOutcome where
  txid : H256
  deriving DecidableEq

/-- `output::Status`. -/
inductive Status where
  | Success
  | Error
  deriving DecidableEq

/-- `output::ReplicaOutput` (output.rs 76-86). -/
inductive ReplicaOutput where
  | Result (status : Status) (tx_hash : Option H256)
      (message : Option (List String))
  deriving DecidableEq

/-- The `status` field of a `ReplicaOutput::Result`. -/
def ReplicaOutput.statusOf : ReplicaOutput → Status
  | .Result s _ _ => s

/-- `output::SimpleErrorOutput` (output.rs 40-48). -/
inductive SimpleErrorOutput where
  | Result (status : Status) (message : String)
  deriving DecidableEq

/-- `output::ReplicasOutput`: the `HashMap<String, ReplicaOutput>` is modelled
as the association list a `HashMap` holds after collecting — at most one entry
per key, the last one inserted. -/
structure ReplicasOutput where
  replicas : List (String × ReplicaOutput)
  deriving DecidableEq

/-- `output::HomeOutput`. -/
structure HomeOutput where
  status : Status
  message : ReplicasOutput
  deriving DecidableEq

/-- `output::HomesOutput`. -/
structure HomesOutput where
  homes : List (String × HomeOutput)
  deriving DecidableEq

/-- `output::Message`. -/
inductive Message where
  | SimpleError (out : SimpleErrorOutput)
  | FullMessage (out : HomesOutput)
  deriving DecidableEq

/-- The `homes` map of a `Message`, empty for the simple-error form. -/
def homesOf : Message → List (String × HomeOutput)
  | .SimpleError _ => []
  | .FullMessage out => out.homes

/-- `HashMap::insert` on the association-list model: overwrite the value at an
existing key, otherwise append a fresh entry. -/
def hmInsert (m : List (String × α)) (k : String) (v : α) :
    List (String × α) :=
  match m with
  | [] => [(k, v)]
  | (k2, v2) :: rest =>
    if k2 == k then (k2, v) :: rest else (k2, v2) :: hmInsert rest k v

/-- `collect::<HashMap<_, _>>()`: insert every pair in iteration order. -/
def hmCollect (l : List (String × α)) : List (String × α) :=
  l.foldl (fun m p => hmInsert m p.1 p.2) []

/-- `HashMap::get` on the association-list model. -/
def hmGet (m : List (String × α)) (k : String) : Option α :=
  (m.find? (fun p => p.1 == k)).map (fun p => p.2)

/-- One step of the grouping loop of `build_output_message`
(output.rs 136-143): push onto the vec of an existing home key, otherwise
insert a fresh singleton vec. -/
def groupPush (homes : List (String × List α)) (k : String) (v : α) :
    List (String × List α) :=
  match homes with
  | [] => [(k, [v])]
  | (k2, vs) :: rest =>
    if k2 == k then (k2, vs ++ [v]) :: rest else (k2, vs) :: groupPush rest k v

/-- `impl From<Error> for Message` (output.rs 27-35). -/
def message_from_error (error : Error) : Message :=
  Message.SimpleError (SimpleErrorOutput.Result Status.Error error.display)

/-- The tagged replica entries built by `build_output_message`
(output.rs 106-133): failed channels first — `Error` status, no tx hash, the
`Display` renderings of the errors — then successful channels — `Success`
status, the transaction id, no message — each paired with its channel and a
success flag. -/
def replicaEntries (bad : List (Channel × List Error))
    (good : List (Channel × TxOutcome)) :
    List (Channel × (Bool × (String × ReplicaOutput))) :=
  bad.map (fun p =>
    (p.1, (false, (p.1.replica,
      ReplicaOutput.Result Status.Error none
        (some (p.2.map (fun e => e.display)))))))
  ++ good.map (fun p =>
    (p.1, (true, (p.1.replica,
      ReplicaOutput.Result Status.Success (some p.2.txid) none))))

/-- The per-home aggregation of `build_output_message` (output.rs 149-164):
`Success` iff every flag in the home's vec is `true`, and the replica map
collected from the vec's `(name, output)` pairs. -/
def homeOutputOf (entries : List (Bool × (String × ReplicaOutput))) :
    HomeOutput :=
  { status :=
      if entries.all (fun q => q.1) then Status.Success else Status.Error
    message := ⟨hmCollect (entries.map (fun q => q.2))⟩ }

/-- `build_output_message` (output.rs 101-168): build the tagged replica
entries, group them under their channel's home (the loop at 136-143), then
aggregate each home and collect the final map. -/
def build_output_message (bad : List (Channel × List Error))
    (good : List (Channel × TxOutcome)) : Message :=
  let replicas := replicaEntries bad good
  let homes := replicas.foldl (fun acc p => groupPush acc p.1.home p.2) []
  Message.FullMessage
    ⟨hmCollect (homes.map (fun p => (p.1, homeOutputOf p.2)))⟩

/-! ## Concrete data used by witnesses and counterexamples -/

/-- First of two conflicting updates sharing `previous_root = 0`. -/
def conflictA : UpdateEvent := ⟨2000, 0, 1, []⟩

/-- Second of two conflicting updates sharing `previous_root = 0`. -/
def conflictB : UpdateEvent := ⟨2000, 0, 2, []⟩

/-- A batch made of a one-event chain plus a disjoint two-event root cycle
(`20 → 21 → 20`). -/
def chainCycleBatch : List UpdateEvent :=
  [⟨2000, 10, 11, []⟩, ⟨2000, 20, 21, []⟩, ⟨2000, 21, 20, []⟩]

/-- The three-event chain of the repository's own `test_sorting_of_events`,
in its (unsorted) input order. -/
def chainTestBatch : List UpdateEvent :=
  [⟨2000, 5, 1, []⟩, ⟨2000, 7, 5, []⟩, ⟨2000, 1, 3, []⟩]

/-- `chainTestBatch` arranged in chain order `7 → 5 → 1 → 3`. -/
def chainTestSorted : List UpdateEvent :=
  [⟨2000, 7, 5, []⟩, ⟨2000, 5, 1, []⟩, ⟨2000, 1, 3, []⟩]

/-- A db whose previous-root and new-root indexes always hold one fixed
signed update. -/
def constDb : NomadDB :=
  { update_by_previous_root := fun _ _ => Except.ok (some ⟨⟨1, 2, 3⟩, 4⟩)
    update_by_new_root := fun _ _ => Except.ok (some ⟨⟨1, 2, 3⟩, 4⟩) }

/-- An RPC view that reports the given tip and reflects the resolved block
number back through `block_hash` and `storage_at`, so that the block height a
read was resolved against is observable in the result. -/
def reflectRpc (tip : Nat) : ChainRpc :=
  { tip := tip, block_hash := fun n => some n, storage_at := fun h => h }

end Spec2Proof

namespace Spec2Proof

/-! ## Shared helper lemmas -/

/-- `find?` returns the unique element satisfying the predicate. -/
theorem find_eq_some_of_unique {α : Type} {p : α → Bool} {l : List α} {a : α}
    (ha : a ∈ l) (hpa : p a = true)
    (huniq : ∀ b ∈ l, p b = true → b = a) : l.find? p = some a := by
  have h1 : (l.find? p).isSome := List.find?_isSome.mpr ⟨a, ha, hpa⟩
  cases hfind : l.find? p with
  | none => rw [hfind] at h1; simp at h1
  | some b =>
    have hb := List.find?_some hfind
    have hmem := List.mem_of_find?_eq_some hfind
    rw [huniq b hmem hb]

/-! ## C9 — termination of `sort_update_events` -/

/-- **C9.** `sort_update_events` terminates on every input batch, including
malformed batches whose events do not form a chain: its only loop is
`for _ in update_events`, which executes exactly one iteration per element of
the iterated list — `iter.length` iterations in total — and each iteration
grows the accumulator by at most one element, so the whole computation is
total and its result has at most `sorted.length + iter.length` elements. -/
theorem sortLoop_executes_length_iterations
    (map_previous_roots : H256 → Option UpdateEvent)
    (iter sorted : List UpdateEvent) :
    (sortLoop map_previous_roots iter sorted).2 = iter.length ∧
    (sortLoop map_previous_roots iter sorted).1.length ≤
      sorted.length + iter.length := by
  induction iter generalizing sorted with
  | nil => simp [sortLoop]
  | cons x rest ih =>
    simp only [sortLoop]
    rcases hlast : sorted.getLast? with _ | next <;> dsimp only
    · have h := ih sorted
      simp only [List.length_cons]
      exact ⟨by rw [h.1], by omega⟩
    · rcases hg : map_previous_roots next.new_root with _ | previous <;>
        dsimp only
      · have h := ih sorted
        simp only [List.length_cons]
        exact ⟨by rw [h.1], by omega⟩
      · have h := ih (sorted ++ [previous])
        simp only [List.length_cons, List.length_append,
          List.length_nil] at h ⊢
        exact ⟨by rw [h.1], by omega⟩

/-! ## C10 — when `sort_update_events` panics -/

/-- **C10.** `sort_update_events` returns without panicking (`isSome` in the
model) if and only if the batch is empty, has a single element, or contains
at least one event whose `previous_root` is not the `new_root` of any event
in the batch; on every other batch the `expect` of the head search panics
(`none`). -/
theorem sort_update_events_no_panic_iff (update_events : List UpdateEvent) :
    (sort_update_events update_events).isSome ↔
      update_events = [] ∨ update_events.length = 1 ∨
        ∃ e ∈ update_events, ∀ e2 ∈ update_events,
          e2.new_root ≠ e.previous_root := by
  unfold sort_update_events
  by_cases h0 : update_events.isEmpty
  · simp [List.isEmpty_iff.mp h0]
  · by_cases h1 : update_events.length == 1
    · have h1e : update_events.length = 1 := by simpa using h1
      simp [h0, h1e]
    · simp only [h0, h1, Bool.false_eq_true, if_false]
      have hne : update_events ≠ [] := by
        intro h; rw [h] at h0; exact h0 rfl
      have hl1 : update_events.length ≠ 1 := by
        intro h; exact h1 (by simpa using h)
      cases hfind : update_events.find?
          (fun e => !(hashMapContains (fun e2 => e2.new_root) update_events
            e.previous_root)) with
      | none =>
        rw [List.find?_eq_none] at hfind
        simp only [Option.isSome_none, Bool.false_eq_true, false_iff]
        push_neg
        refine ⟨hne, hl1, ?_⟩
        intro e he
        have := hfind e he
        simp only [hashMapContains, Bool.not_eq_true', Bool.not_eq_false,
          List.any_eq_true, beq_iff_eq] at this
        obtain ⟨e2, he2, heq⟩ := this
        exact ⟨e2, he2, heq⟩
      | some fe =>
        simp only [Option.isSome_some, true_iff]
        refine Or.inr (Or.inr ?_)
        have hpa := List.find?_some hfind
        have hmem := List.mem_of_find?_eq_some hfind
        refine ⟨fe, hmem, ?_⟩
        intro e2 he2
        simp only [hashMapContains, Bool.not_eq_true', List.any_eq_false,
          beq_iff_eq] at hpa
        exact hpa e2 he2

/-! ## C8 — top-level configuration errors -/

/-- **C8.** Converting a top-level configuration `Error` into an output
`Message` always produces the `SimpleError` form whose status is `Error` and
whose message is the `Display` rendering of the error; it is never the
per-home/per-replica `FullMessage` form. -/
theorem message_from_error_is_simple_error (error : Error) :
    message_from_error error =
      Message.SimpleError (SimpleErrorOutput.Result Status.Error
        error.display) ∧
    ∀ homes : HomesOutput, message_from_error error ≠
      Message.FullMessage homes := by
  exact ⟨rfl, fun homes h => by simp [message_from_error] at h⟩

/-! ## C4 — finality lag in `storage_fetch` -/

/-- **C4 (amended).** When the configured timelag is `Some lag` and
`lag ≤ tip`, `storage_fetch` resolves the read against block height
`tip - lag`; when the timelag is `None` it resolves against the current tip.
(For `tip < lag` the `u32` subtraction wraps, see the counterexample.) -/
theorem storage_fetch_resolves_at_lagged_height (timelag : Option Nat)
    (rpc : ChainRpc) (htip : rpc.tip < 2 ^ 32) :
    (∀ lag, timelag = some lag → lag ≤ rpc.tip →
      storage_fetch timelag rpc =
        rpc.storage_at (rpc.block_hash (rpc.tip - lag))) ∧
    (timelag = none →
      storage_fetch timelag rpc =
        rpc.storage_at (rpc.block_hash rpc.tip)) := by
  constructor
  · rintro lag rfl hlag
    simp only [storage_fetch, final_block_number]
    have hpow : (2 : Nat) ^ 32 = 4294967296 := by norm_num
    rw [hpow] at htip ⊢
    congr 2
    omega
  · rintro rfl
    rfl

/-- **C4 (counterexample to the claim as stated).**  At `tip = 0` with
`timelag = Some 1` the read is resolved against block height
`4294967295 = 2 ^ 32 - 1` (the wrapped `u32` subtraction), not against
`tip - 1`: there is no block height one below `0`, and the natural
truncated difference `0 - 1 = 0` is a different height. -/
theorem storage_fetch_wraps_below_lag :
    storage_fetch (some 1) (reflectRpc 0) = some 4294967295 ∧
    (reflectRpc 0).storage_at ((reflectRpc 0).block_hash (0 - 1)) = some 0 ∧
    (4294967295 : Nat) ≠ 0 := by decide

/-- Witness for `storage_fetch_resolves_at_lagged_height` at
`tip = 100`, `lag = 5`. -/
theorem storage_fetch_resolves_at_lagged_height_witness :
    (reflectRpc 100).tip < 2 ^ 32 ∧ (5 : Nat) ≤ (reflectRpc 100).tip ∧
    storage_fetch (some 5) (reflectRpc 100) = some 95 := by
  refine ⟨by decide, by decide, ?_⟩
  have h := (storage_fetch_resolves_at_lagged_height (some 5) (reflectRpc 100)
    (by decide)).1 5 rfl (by decide)
  simpa using h

/-! ## C3 — blocking index-store lookups -/

/-- The polling loop returns `Ok r` only when some poll of the store returned
`Ok (Some u)` with `r = some u`. -/
theorem await_update_lookup_ok
    (lookup : Nat → Except DbError (Option SignedUpdate)) :
    ∀ (fuel t : Nat) (r : Option SignedUpdate),
      await_update_lookup lookup fuel t = some (Except.ok r) →
      ∃ u s, r = some u ∧ lookup s = Except.ok (some u) := by
  intro fuel
  induction fuel with
  | zero => intro t r h; simp [await_update_lookup] at h
  | succ n ih =>
    intro t r h
    unfold await_update_lookup at h
    cases hl : lookup t with
    | error e => rw [hl] at h; simp at h
    | ok o =>
      cases o with
      | some u =>
        rw [hl] at h
        simp only [Option.some_inj, Except.ok.injEq] at h
        exact ⟨u, t, h.symm, hl⟩
      | none =>
        rw [hl] at h
        exact ih (t + 1) r h

/-- **C3.** `CachingReplica::signed_update_by_old_root` (and symmetrically
`signed_update_by_new_root`) returns `Ok` only when the store produced a
signed update keyed by the queried root on some poll of its 500 ms re-check
loop, and the returned value is then `Ok (Some u)` where `u` is exactly that
stored update; in particular `Ok None` is never returned. -/
theorem signed_update_lookup_ok_only_if_present (db : NomadDB)
    (old_root new_root : H256) (fuel : Nat) :
    (∀ r, signed_update_by_old_root db old_root fuel = some (Except.ok r) →
      ∃ u t, r = some u ∧
        db.update_by_previous_root t old_root = Except.ok (some u)) ∧
    (∀ r, signed_update_by_new_root db new_root fuel = some (Except.ok r) →
      ∃ u t, r = some u ∧
        db.update_by_new_root t new_root = Except.ok (some u)) := by
  constructor
  · intro r h
    exact await_update_lookup_ok (fun t => db.update_by_previous_root t
      old_root) fuel 0 r h
  · intro r h
    exact await_update_lookup_ok (fun t => db.update_by_new_root t
      new_root) fuel 0 r h

/-- Witness for `signed_update_lookup_ok_only_if_present` on a store that
always holds one signed update. -/
theorem signed_update_lookup_witness :
    signed_update_by_old_root constDb 2 1 =
      some (Except.ok (some ⟨⟨1, 2, 3⟩, 4⟩)) ∧
    ∃ u t, (some (⟨⟨1, 2, 3⟩, 4⟩ : SignedUpdate) : Option SignedUpdate) =
        some u ∧
      constDb.update_by_previous_root t 2 = Except.ok (some u) :=
  ⟨rfl, (signed_update_lookup_ok_only_if_present constDb 2 3 1).1 _ rfl⟩

/-! ## C1 — conflicting updates in one batch -/

/-- **C1 (code evaluation at the failing input).**  On a batch of two update
events with the same `previous_root` and differing `new_root`,
`sort_update_events` silently drops the second event: the output holds only
the first event, so the output is not a permutation of the input and the
detector is handed a single half of the double-update evidence. -/
theorem sort_update_events_drops_conflicting_update :
    sort_update_events [conflictA, conflictB] = some [conflictA] ∧
    conflictB ∉ [conflictA] ∧
    [conflictA].length ≠ [conflictA, conflictB].length := by decide

/-! ## C7 — sorted dispatch messages -/

/-- **C7.** `fetch_sorted_messages_for_block` returns exactly the block's
`Dispatch` events — each mapped field-by-field to
`RawCommittedMessage { leaf_index, committed_root, message }` — sorted in
ascending order of `leaf_index`. -/
theorem fetch_sorted_messages_for_block_spec
    (dispatch_events : List DispatchEvent) :
    (fetch_sorted_messages_for_block dispatch_events).Perm
      (dispatch_events.map toRawCommittedMessage) ∧
    (fetch_sorted_messages_for_block dispatch_events).Pairwise
      (fun a b => a.leaf_index ≤ b.leaf_index) ∧
    ∀ ev : DispatchEvent, toRawCommittedMessage ev =
      ⟨ev.leaf_index, ev.committed_root, ev.message⟩ := by
  refine ⟨?_, ?_, fun ev => rfl⟩
  · exact (List.mergeSort_perm dispatch_events _).map toRawCommittedMessage
  · have hs := @List.sorted_mergeSort DispatchEvent
      (fun a b => a.leaf_index ≤ b.leaf_index)
      (fun a b c hab hbc => by
        simp only [decide_eq_true_eq] at hab hbc ⊢
        omega)
      (fun a b => by
        simp only [Bool.or_eq_true, decide_eq_true_eq]
        omega)
      dispatch_events
    unfold fetch_sorted_messages_for_block
    refine List.Pairwise.map toRawCommittedMessage ?_ hs
    intro a b hab
    simpa [toRawCommittedMessage] using hab

/-! ## C2 — chained batches -/

/-- A chained list stays chained after dropping its head. -/
theorem chained_of_cons {a : UpdateEvent} {l : List UpdateEvent}
    (h : chained (a :: l) = true) : chained l = true := by
  cases l with
  | nil => rfl
  | cons b rest =>
    simp only [chained, Bool.and_eq_true] at h
    exact h.2

/-- Adjacent events of a chained list are linked `previous_root ← new_root`. -/
theorem chained_adjacent :
    ∀ (u : List UpdateEvent) (x y : UpdateEvent) (v : List UpdateEvent),
      chained (u ++ x :: y :: v) = true → y.previous_root = x.new_root := by
  intro u
  induction u with
  | nil =>
    intro x y v h
    simp only [List.nil_append, chained, Bool.and_eq_true, beq_iff_eq] at h
    exact h.1
  | cons a u ih =>
    intro x y v h
    rw [List.cons_append] at h
    exact ih x y v (chained_of_cons h)

/-- Every non-head event of a chained list has a predecessor in the list. -/
theorem chained_mem_tail :
    ∀ (a : UpdateEvent) (l : List UpdateEvent), chained (a :: l) = true →
      ∀ e ∈ l, ∃ x ∈ a :: l, e.previous_root = x.new_root := by
  intro a l
  induction l generalizing a with
  | nil =>
    intro _ e he
    cases he
  | cons b rest ih =>
    intro h e he
    have hlink : b.previous_root = a.new_root := by
      simp only [chained, Bool.and_eq_true, beq_iff_eq] at h
      exact h.1
    rcases List.mem_cons.mp he with rfl | he2
    · exact ⟨a, List.mem_cons_self a _, hlink⟩
    · obtain ⟨x, hx, hxe⟩ := ih b (chained_of_cons h) e he2
      exact ⟨x, List.mem_cons_of_mem a hx, hxe⟩

/-- For a chained list the `previous_root`s are the root sequence without
its last entry. -/
theorem chained_map_previous :
    ∀ (c : List UpdateEvent), chained c = true →
      c.map (fun e => e.previous_root) = (rootsOf c).dropLast := by
  intro c
  induction c with
  | nil => intro _; rfl
  | cons a l ih =>
    intro h
    cases l with
    | nil => simp [rootsOf]
    | cons b rest =>
      have hlink : b.previous_root = a.new_root := by
        simp only [chained, Bool.and_eq_true, beq_iff_eq] at h
        exact h.1
      have ih2 := ih (chained_of_cons h)
      simp only [rootsOf, List.map_cons, List.dropLast_cons₂,
        List.cons.injEq, true_and] at ih2 ⊢
      exact ⟨hlink, ih2⟩

/-- Once the last element of the accumulator has no successor in the
previous-root map, the remaining loop iterations leave it unchanged. -/
theorem sortLoop_stuck (g : H256 → Option UpdateEvent)
    (done2 : List UpdateEvent) (d : UpdateEvent)
    (hnone : g d.new_root = none) :
    ∀ iter, (sortLoop g iter (done2 ++ [d])).1 = done2 ++ [d] := by
  intro iter
  induction iter with
  | nil => rfl
  | cons x rest ih =>
    simp only [sortLoop, List.getLast?_concat, hnone]
    exact ih

/-- Walking the loop from a prefix of the chain appends the chain's remaining
elements, one per iteration, provided the previous-root map follows the chain
(`hstep`) and stops after its last element (`hlast`). -/
theorem sortLoop_walk (g : H256 → Option UpdateEvent) (c : List UpdateEvent)
    (hstep : ∀ u (x y : UpdateEvent) v, c = u ++ x :: y :: v →
      g x.new_root = some y)
    (hlast : ∀ u (x : UpdateEvent), c = u ++ [x] → g x.new_root = none) :
    ∀ (rest done2 : List UpdateEvent) (d : UpdateEvent)
      (iter : List UpdateEvent),
      c = (done2 ++ [d]) ++ rest → rest.length ≤ iter.length →
      (sortLoop g iter (done2 ++ [d])).1 = c := by
  intro rest
  induction rest with
  | nil =>
    intro done2 d iter hc _
    rw [List.append_nil] at hc
    rw [sortLoop_stuck g done2 d (hlast done2 d hc) iter]
    exact hc.symm
  | cons h2 t ih =>
    intro done2 d iter hc hlen
    cases iter with
    | nil => simp at hlen
    | cons i it =>
      have hstep1 : g d.new_root = some h2 := by
        apply hstep done2 d h2 t
        rw [hc, List.append_assoc, List.singleton_append]
      simp only [sortLoop, List.getLast?_concat, hstep1]
      have hc2 : c = ((done2 ++ [d]) ++ [h2]) ++ t := by
        rw [hc]
        simp [List.append_assoc]
      have hlen2 : t.length ≤ it.length := by
        simp only [List.length_cons] at hlen
        omega
      exact ih (done2 ++ [d]) h2 it hc2 hlen2

/-- **C2 (amended).**  If the batch is a permutation of a chain
`c = [c_1, …, c_n]` — consecutive events linked by
`previous_root = new_root` — whose `n + 1` traversed roots are pairwise
distinct, then `sort_update_events` returns exactly that chain, starting at
the head `c_1` (the unique event whose `previous_root` is not the `new_root`
of any event of the batch), with each subsequent event's `previous_root`
equal to the preceding event's `new_root`. -/
theorem sort_update_events_of_chain (update_events c : List UpdateEvent)
    (hperm : update_events.Perm c) (hchain : chained c = true)
    (hroots : (rootsOf c).Nodup) :
    sort_update_events update_events = some c := by
  cases c with
  | nil =>
    rw [hperm.eq_nil]
    rfl
  | cons c1 ctail =>
    cases ctail with
    | nil =>
      rw [List.perm_singleton.mp hperm]
      rfl
    | cons c2 crest =>
      -- the batch has at least two events
      have hlen : update_events.length = (c1 :: c2 :: crest).length :=
        hperm.length_eq
      have hmemc : ∀ e, e ∈ update_events ↔ e ∈ c1 :: c2 :: crest :=
        fun e => hperm.mem_iff
      -- `previous_root` is injective on the chain
      have hprevmap := chained_map_previous (c1 :: c2 :: crest) hchain
      have hprevnodup :
          ((c1 :: c2 :: crest).map (fun e => e.previous_root)).Nodup := by
        rw [hprevmap]
        exact hroots.sublist (List.dropLast_sublist _)
      have hprevinj := List.inj_on_of_nodup_map hprevnodup
      -- the head's `previous_root` is no event's `new_root`
      have hrootsofeq : rootsOf (c1 :: c2 :: crest) =
          c1.previous_root :: (c1 :: c2 :: crest).map (fun e => e.new_root) :=
        rfl
      have hheadfresh : c1.previous_root ∉
          (c1 :: c2 :: crest).map (fun e => e.new_root) := by
        rw [hrootsofeq] at hroots
        exact (List.nodup_cons.mp hroots).1
      -- the head search finds `c1`
      have hfind : update_events.find?
          (fun e => !(hashMapContains (fun e2 => e2.new_root) update_events
            e.previous_root)) = some c1 := by
        apply find_eq_some_of_unique
        · exact (hmemc c1).mpr (List.mem_cons_self _ _)
        · simp only [hashMapContains, Bool.not_eq_true', List.any_eq_false,
            beq_iff_eq]
          intro e he heq
          exact hheadfresh (heq ▸ List.mem_map_of_mem
            (fun e2 => e2.new_root) ((hmemc e).mp he))
        · intro b hb hpb
          have hbc := (hmemc b).mp hb
          rcases List.mem_cons.mp hbc with rfl | hbtail
          · rfl
          · exfalso
            obtain ⟨x, hx, hxb⟩ :=
              chained_mem_tail c1 (c2 :: crest) hchain b hbtail
            simp only [hashMapContains, Bool.not_eq_true',
              List.any_eq_false, beq_iff_eq] at hpb
            exact hpb x ((hmemc x).mpr hx) hxb.symm
      -- the previous-root map follows the chain and stops at its end
      have hstep : ∀ u (x y : UpdateEvent) v,
          c1 :: c2 :: crest = u ++ x :: y :: v →
          hashMapGet (fun e => e.previous_root) update_events x.new_root =
            some y := by
        intro u x y v hsplit
        apply find_eq_some_of_unique
        · rw [List.mem_reverse]
          apply (hmemc y).mpr
          rw [hsplit]
          exact List.mem_append_right u (List.mem_cons_of_mem x
            (List.mem_cons_self y v))
        · simp only [beq_iff_eq]
          exact chained_adjacent u x y v (hsplit ▸ hchain)
        · intro b hb hpb
          rw [List.mem_reverse] at hb
          simp only [beq_iff_eq] at hpb
          have hymem : y ∈ c1 :: c2 :: crest := by
            rw [hsplit]
            exact List.mem_append_right u (List.mem_cons_of_mem x
              (List.mem_cons_self y v))
          have hyprev : y.previous_root = x.new_root :=
            chained_adjacent u x y v (hsplit ▸ hchain)
          exact hprevinj ((hmemc b).mp hb) hymem (hpb.trans hyprev.symm)
      have hlast : ∀ u (x : UpdateEvent), c1 :: c2 :: crest = u ++ [x] →
          hashMapGet (fun e => e.previous_root) update_events x.new_root =
            none := by
        intro u x hsplit
        apply List.find?_eq_none.mpr
        intro b hb
        rw [List.mem_reverse] at hb
        simp only [beq_iff_eq]
        intro hbx
        -- `b.previous_root` is among the roots without the last entry,
        -- `x.new_root` is the last root: contradiction with distinctness
        have hbprev : b.previous_root ∈
            (rootsOf (c1 :: c2 :: crest)).dropLast := by
          rw [← hprevmap]
          exact List.mem_map_of_mem (fun e => e.previous_root)
            ((hmemc b).mp hb)
        have hshape : rootsOf (c1 :: c2 :: crest) =
            (c1.previous_root :: u.map (fun e => e.new_root)) ++
              [x.new_root] := by
          rw [hrootsofeq, hsplit]
          simp
        rw [hshape] at hbprev hroots
        rw [List.dropLast_concat] at hbprev
        have hxfresh : x.new_root ∉
            c1.previous_root :: u.map (fun e => e.new_root) := by
          intro hmem
          exact (List.nodup_append.mp hroots).2.2 hmem
            (List.mem_singleton_self _)
        exact hxfresh (hbx ▸ hbprev)
      -- assemble
      have hempty : update_events.isEmpty = false := by
        cases update_events with
        | nil => simp at hlen
        | cons a l => rfl
      have hlen1 : (update_events.length == 1) = false := by
        simp only [List.length_cons] at hlen
        simp [hlen]
      unfold sort_update_events
      rw [hempty, hlen1, hfind]
      simp only [Bool.false_eq_true, if_false]
      have hwalk := sortLoop_walk
        (hashMapGet (fun e => e.previous_root) update_events)
        (c1 :: c2 :: crest) hstep hlast (c2 :: crest) [] c1 update_events
        (by simp) (by simp only [List.length_cons] at hlen ⊢; omega)
      rw [List.nil_append] at hwalk
      rw [hwalk]

/-- **C2 (counterexample to the claim as stated).**  `chainCycleBatch` — a
one-event chain plus a disjoint two-event root cycle — satisfies the claim's
literal side condition (exactly one event whose `previous_root` is not the
`new_root` of any other event, and each event's `new_root` the
`previous_root` of at most one other event), yet `sort_update_events` returns
only the head event: the two cycle events are missing from the output. -/
theorem sort_update_events_chain_claim_counterexample :
    claimedChainCondition chainCycleBatch = true ∧
    sort_update_events chainCycleBatch =
      some [⟨2000, 10, 11, []⟩] ∧
    (⟨2000, 20, 21, []⟩ : UpdateEvent) ∉
      [(⟨2000, 10, 11, []⟩ : UpdateEvent)] := by decide

/-- Witness for `sort_update_events_of_chain` on the repository's own test
chain `7 → 5 → 1 → 3`. -/
theorem sort_update_events_of_chain_witness :
    chainTestBatch.Perm chainTestSorted ∧
    chained chainTestSorted = true ∧
    (rootsOf chainTestSorted).Nodup ∧
    sort_update_events chainTestBatch = some chainTestSorted := by
  refine ⟨by decide, by decide, by decide, ?_⟩
  exact sort_update_events_of_chain chainTestBatch chainTestSorted
    (by decide) (by decide) (by decide)

/-! ## HashMap-model lemmas for the killswitch output -/

theorem hmGet_cons {α : Type} (k2 : String) (v2 : α)
    (rest : List (String × α)) (k : String) :
    hmGet ((k2, v2) :: rest) k =
      if k2 == k then some v2 else hmGet rest k := by
  by_cases h : (k2 == k) = true
  · rw [if_pos h]
    simp only [hmGet]
    rw [@List.find?_cons_of_pos _ (fun p => p.1 == k) (k2, v2) rest h]
    rfl
  · rw [if_neg h]
    simp only [hmGet]
    rw [@List.find?_cons_of_neg _ (fun p => p.1 == k) (k2, v2) rest h]

theorem hmGet_hmInsert_self {α : Type} (m : List (String × α)) (k : String)
    (v : α) : hmGet (hmInsert m k v) k = some v := by
  induction m with
  | nil => simp [hmInsert, hmGet_cons]
  | cons p rest ih =>
    rcases p with ⟨k2, v2⟩
    by_cases hk : (k2 == k) = true
    · simp [hmInsert, hk, hmGet_cons]
    · simp only [hmInsert, hk, Bool.false_eq_true, if_false, hmGet_cons]
      exact ih

theorem hmGet_hmInsert_other {α : Type} (m : List (String × α))
    (k k2 : String) (v : α) (hne : (k2 == k) = false) :
    hmGet (hmInsert m k v) k2 = hmGet m k2 := by
  have hne2 : (k == k2) = false := by
    simp only [beq_eq_false_iff_ne, ne_eq] at hne ⊢
    exact fun h => hne h.symm
  induction m with
  | nil => simp [hmInsert, hmGet_cons, hne2, hmGet]
  | cons p rest ih =>
    rcases p with ⟨k3, v3⟩
    by_cases hk : (k3 == k) = true
    · have hk3 : k3 = k := by simpa using hk
      subst hk3
      simp only [hmInsert, beq_self_eq_true, if_true, hmGet_cons, hne2,
        Bool.false_eq_true, if_false]
    · simp only [hmInsert, hk, Bool.false_eq_true, if_false, hmGet_cons]
      by_cases hk32 : (k3 == k2) = true
      · simp [hk32]
      · simp only [hk32, Bool.false_eq_true, if_false]
        exact ih

theorem mem_hmInsert {α : Type} (m : List (String × α)) (k : String) (v : α)
    (q : String × α) (hq : q ∈ hmInsert m k v) : q ∈ m ∨ q = (k, v) := by
  induction m with
  | nil => simpa [hmInsert] using hq
  | cons p rest ih =>
    rcases p with ⟨k2, v2⟩
    by_cases hk : k2 == k
    · simp only [hmInsert, hk, if_true] at hq
      rcases List.mem_cons.mp hq with rfl | hq2
      · right
        have : k2 = k := by simpa using hk
        rw [this]
      · left
        exact List.mem_cons_of_mem _ hq2
    · simp only [hmInsert, hk, Bool.false_eq_true, if_false] at hq
      rcases List.mem_cons.mp hq with rfl | hq2
      · exact Or.inl (List.mem_cons_self _ _)
      · rcases ih hq2 with h | h
        · exact Or.inl (List.mem_cons_of_mem _ h)
        · exact Or.inr h

theorem hmInsert_append {α : Type} (m : List (String × α)) (k : String)
    (v : α) (hk : k ∉ m.map Prod.fst) : hmInsert m k v = m ++ [(k, v)] := by
  induction m with
  | nil => rfl
  | cons p rest ih =>
    rcases p with ⟨k2, v2⟩
    simp only [List.map_cons, List.mem_cons] at hk
    push_neg at hk
    have hne : (k2 == k) = false := by
      simp only [beq_eq_false_iff_ne, ne_eq]
      exact fun h => hk.1 h.symm
    simp only [hmInsert, hne, Bool.false_eq_true, if_false, List.cons_append,
      List.cons.injEq, true_and]
    exact ih hk.2

theorem foldl_hmInsert_append {α : Type} :
    ∀ (l acc : List (String × α)),
      (((acc ++ l).map Prod.fst).Nodup) →
      l.foldl (fun m p => hmInsert m p.1 p.2) acc = acc ++ l := by
  intro l
  induction l with
  | nil =>
    intro acc _
    simp
  | cons p rest ih =>
    intro acc hnd
    rcases p with ⟨k, v⟩
    have hknotin : k ∉ acc.map Prod.fst := by
      intro hmem
      simp only [List.map_append, List.map_cons] at hnd
      have hdisj := (List.nodup_append.mp hnd).2.2
      exact hdisj hmem (List.mem_cons_self _ _)
    have hins : hmInsert acc k v = acc ++ [(k, v)] :=
      hmInsert_append acc k v hknotin
    simp only [List.foldl_cons, hins]
    have hnd2 : (((acc ++ [(k, v)]) ++ rest).map Prod.fst).Nodup := by
      rw [List.append_assoc, List.singleton_append]
      exact hnd
    rw [ih (acc ++ [(k, v)]) hnd2, List.append_assoc, List.singleton_append]

theorem hmCollect_eq_self {α : Type} (l : List (String × α))
    (hnd : (l.map Prod.fst).Nodup) : hmCollect l = l := by
  have := foldl_hmInsert_append l [] (by simpa using hnd)
  simpa [hmCollect] using this

theorem mem_foldl_hmInsert {α : Type} :
    ∀ (l acc : List (String × α)) (q : String × α),
      q ∈ l.foldl (fun m p => hmInsert m p.1 p.2) acc → q ∈ acc ∨ q ∈ l := by
  intro l
  induction l with
  | nil =>
    intro acc q hq
    exact Or.inl (by simpa using hq)
  | cons p rest ih =>
    intro acc q hq
    simp only [List.foldl_cons] at hq
    rcases ih (hmInsert acc p.1 p.2) q hq with h | h
    · rcases mem_hmInsert acc p.1 p.2 q h with h2 | h2
      · exact Or.inl h2
      · right
        rw [h2]
        exact List.mem_cons_self _ _
    · exact Or.inr (List.mem_cons_of_mem _ h)

theorem mem_hmCollect {α : Type} (l : List (String × α)) (q : String × α)
    (hq : q ∈ hmCollect l) : q ∈ l := by
  rcases mem_foldl_hmInsert l [] q hq with h | h
  · cases h
  · exact h

theorem hmGet_of_mem_of_nodup {α : Type} :
    ∀ (l : List (String × α)) (k : String) (v : α),
      (l.map Prod.fst).Nodup → (k, v) ∈ l → hmGet l k = some v := by
  intro l
  induction l with
  | nil =>
    intro k v _ hmem
    cases hmem
  | cons p rest ih =>
    intro k v hnd hmem
    rcases p with ⟨k2, v2⟩
    rw [hmGet_cons]
    rcases List.mem_cons.mp hmem with heq | hmem2
    · injection heq.symm with h1 h2
      subst h1
      subst h2
      simp
    · have hk2 : (k2 == k) = false := by
        simp only [List.map_cons, List.nodup_cons] at hnd
        simp only [beq_eq_false_iff_ne, ne_eq]
        intro heq
        apply hnd.1
        rw [heq]
        exact List.mem_map_of_mem Prod.fst hmem2
      rw [hk2]
      simp only [Bool.false_eq_true, if_false]
      exact ih k v (by
        simp only [List.map_cons, List.nodup_cons] at hnd
        exact hnd.2) hmem2

theorem hmGet_groupPush_self {β : Type} :
    ∀ (m : List (String × List β)) (k : String) (v : β),
      hmGet (groupPush m k v) k = some ((hmGet m k).getD [] ++ [v]) := by
  intro m
  induction m with
  | nil =>
    intro k v
    simp [groupPush, hmGet_cons, hmGet]
  | cons p rest ih =>
    intro k v
    rcases p with ⟨k2, vs⟩
    by_cases hk : (k2 == k) = true
    · simp [groupPush, hk, hmGet_cons]
    · simp only [groupPush, hk, Bool.false_eq_true, if_false, hmGet_cons]
      exact ih k v

theorem hmGet_groupPush_other {β : Type} :
    ∀ (m : List (String × List β)) (k k2 : String) (v : β),
      (k2 == k) = false → hmGet (groupPush m k v) k2 = hmGet m k2 := by
  intro m
  induction m with
  | nil =>
    intro k k2 v hne
    have hne2 : (k == k2) = false := by
      simp only [beq_eq_false_iff_ne, ne_eq] at hne ⊢
      exact fun h => hne h.symm
    simp [groupPush, hmGet_cons, hne2, hmGet]
  | cons p rest ih =>
    intro k k2 v hne
    rcases p with ⟨k3, vs⟩
    by_cases hk : (k3 == k) = true
    · have hk3 : k3 = k := by simpa using hk
      have h32 : (k3 == k2) = false := by
        simp only [beq_eq_false_iff_ne, ne_eq] at hne ⊢
        subst hk3
        exact fun hx => hne hx.symm
      simp only [groupPush, hk, if_true, hmGet_cons, h32,
        Bool.false_eq_true, if_false]
    · simp only [groupPush, hk, Bool.false_eq_true, if_false, hmGet_cons]
      by_cases hk32 : (k3 == k2) = true
      · simp [hk32]
      · simp only [hk32, Bool.false_eq_true, if_false]
        exact ih k k2 v hne

theorem mem_keys_groupPush {β : Type} :
    ∀ (m : List (String × List β)) (k a : String) (v : β),
      a ∈ (groupPush m k v).map Prod.fst ↔ a ∈ m.map Prod.fst ∨ a = k := by
  intro m
  induction m with
  | nil =>
    intro k a v
    simp [groupPush]
  | cons p rest ih =>
    intro k a v
    rcases p with ⟨k2, vs⟩
    by_cases hk : (k2 == k) = true
    · have hk2 : k2 = k := by simpa using hk
      subst hk2
      simp only [groupPush, beq_self_eq_true, if_true, List.map_cons,
        List.mem_cons]
      constructor
      · intro hin
        rcases hin with rfl | hin
        · exact Or.inr rfl
        · exact Or.inl (Or.inr hin)
      · intro hin
        rcases hin with (rfl | hin) | rfl
        · exact Or.inl rfl
        · exact Or.inr hin
        · exact Or.inl rfl
    · simp only [groupPush, hk, Bool.false_eq_true, if_false, List.map_cons,
        List.mem_cons]
      rw [ih k a v]
      tauto

theorem keys_nodup_groupPush {β : Type} :
    ∀ (m : List (String × List β)) (k : String) (v : β),
      (m.map Prod.fst).Nodup → ((groupPush m k v).map Prod.fst).Nodup := by
  intro m
  induction m with
  | nil =>
    intro k v _
    simp [groupPush]
  | cons p rest ih =>
    intro k v hnd
    rcases p with ⟨k2, vs⟩
    simp only [List.map_cons, List.nodup_cons] at hnd
    by_cases hk : (k2 == k) = true
    · simp only [groupPush, hk, if_true, List.map_cons, List.nodup_cons]
      exact hnd
    · simp only [groupPush, hk, Bool.false_eq_true, if_false, List.map_cons,
        List.nodup_cons]
      refine ⟨?_, ih k v hnd.2⟩
      rw [mem_keys_groupPush rest k k2 v]
      push_neg
      exact ⟨hnd.1, by simpa using hk⟩

theorem foldl_groupPush_get_some {β : Type} :
    ∀ (l : List (Channel × β)) (acc : List (String × List β)) (k : String)
      (vs : List β), hmGet acc k = some vs →
      hmGet (l.foldl (fun a p => groupPush a p.1.home p.2) acc) k =
        some (vs ++ (l.filter (fun p => p.1.home == k)).map
          (fun p => p.2)) := by
  intro l
  induction l with
  | nil =>
    intro acc k vs hacc
    simpa using hacc
  | cons p rest ih =>
    intro acc k vs hacc
    simp only [List.foldl_cons]
    by_cases hph : (p.1.home == k) = true
    · have heq : p.1.home = k := by simpa using hph
      have h2 : hmGet (groupPush acc p.1.home p.2) k = some (vs ++ [p.2]) := by
        rw [heq, hmGet_groupPush_self, hacc]
        rfl
      rw [ih (groupPush acc p.1.home p.2) k (vs ++ [p.2]) h2]
      rw [@List.filter_cons_of_pos _ (fun q => q.1.home == k) p rest hph]
      simp [List.append_assoc]
    · have h2 : hmGet (groupPush acc p.1.home p.2) k = some vs := by
        rw [hmGet_groupPush_other acc p.1.home k p.2
          (by simpa using fun h => (by simpa using hph : ¬p.1.home = k) h.symm)]
        exact hacc
      rw [ih (groupPush acc p.1.home p.2) k vs h2,
        @List.filter_cons_of_neg _ (fun q => q.1.home == k) p rest hph]

theorem foldl_groupPush_get_none {β : Type} :
    ∀ (l : List (Channel × β)) (acc : List (String × List β)) (k : String),
      hmGet acc k = none →
      hmGet (l.foldl (fun a p => groupPush a p.1.home p.2) acc) k =
        (if (l.filter (fun p => p.1.home == k)).isEmpty then none
         else some ((l.filter (fun p => p.1.home == k)).map
           (fun p => p.2))) := by
  intro l
  induction l with
  | nil =>
    intro acc k hacc
    simpa using hacc
  | cons p rest ih =>
    intro acc k hacc
    simp only [List.foldl_cons]
    by_cases hph : (p.1.home == k) = true
    · have heq : p.1.home = k := by simpa using hph
      have h2 : hmGet (groupPush acc p.1.home p.2) k = some [p.2] := by
        rw [heq, hmGet_groupPush_self, hacc]
        rfl
      rw [foldl_groupPush_get_some rest (groupPush acc p.1.home p.2) k
        [p.2] h2]
      rw [@List.filter_cons_of_pos _ (fun q => q.1.home == k) p rest hph]
      simp
    · have h2 : hmGet (groupPush acc p.1.home p.2) k = none := by
        rw [hmGet_groupPush_other acc p.1.home k p.2
          (by simpa using fun h => (by simpa using hph : ¬p.1.home = k) h.symm)]
        exact hacc
      rw [ih (groupPush acc p.1.home p.2) k h2,
        @List.filter_cons_of_neg _ (fun q => q.1.home == k) p rest hph]

theorem foldl_groupPush_keys_nodup {β : Type} :
    ∀ (l : List (Channel × β)) (acc : List (String × List β)),
      (acc.map Prod.fst).Nodup →
      ((l.foldl (fun a p => groupPush a p.1.home p.2) acc).map
        Prod.fst).Nodup := by
  intro l
  induction l with
  | nil =>
    intro acc hacc
    simpa using hacc
  | cons p rest ih =>
    intro acc hacc
    simp only [List.foldl_cons]
    exact ih (groupPush acc p.1.home p.2)
      (keys_nodup_groupPush acc p.1.home p.2 hacc)

theorem hmGet_map {β γ : Type} (f : β → γ) :
    ∀ (l : List (String × β)) (k : String),
      hmGet (l.map (fun p => (p.1, f p.2))) k = (hmGet l k).map f := by
  intro l
  induction l with
  | nil => intro k; rfl
  | cons p rest ih =>
    intro k
    rcases p with ⟨k2, v2⟩
    simp only [List.map_cons, hmGet_cons]
    by_cases hk : (k2 == k) = true
    · simp [hk]
    · simp only [hk, Bool.false_eq_true, if_false]
      exact ih k

theorem channel_eq (c1 c2 : Channel) (hh : c1.home = c2.home)
    (hr : c1.replica = c2.replica) : c1 = c2 := by
  cases c1
  cases c2
  simp only at hh hr
  rw [hh, hr]

/-- The channels of the tagged replica entries, in order: failed channels
first, then successful ones. -/
theorem replicaEntries_channels (bad : List (Channel × List Error))
    (good : List (Channel × TxOutcome)) :
    (replicaEntries bad good).map (fun p => p.1) =
      bad.map (fun p => p.1) ++ good.map (fun p => p.1) := by
  simp only [replicaEntries, List.map_append, List.map_map]
  congr 1

/-- Every tagged replica entry is keyed by its channel's replica name, and
its status reflects its success flag: `Success` entries carry the flag
`true`, `Error` entries the flag `false`. -/
theorem replicaEntries_spec (bad : List (Channel × List Error))
    (good : List (Channel × TxOutcome)) :
    ∀ p ∈ replicaEntries bad good,
      p.2.2.1 = p.1.replica ∧
      p.2.2.2.statusOf =
        (if p.2.1 = true then Status.Success else Status.Error) := by
  intro p hp
  simp only [replicaEntries] at hp
  rcases List.mem_append.mp hp with h | h
  · obtain ⟨q, hq, rfl⟩ := List.mem_map.mp h
    exact ⟨rfl, by simp [ReplicaOutput.statusOf]⟩
  · obtain ⟨q, hq, rfl⟩ := List.mem_map.mp h
    exact ⟨rfl, by simp [ReplicaOutput.statusOf]⟩

/-- Looking a home up in the built output document: the entry exists exactly
when some input channel has that home, and aggregates the home's entries in
input order (failed channels first). -/
theorem build_output_get (bad : List (Channel × List Error))
    (good : List (Channel × TxOutcome)) (h : String) :
    hmGet (homesOf (build_output_message bad good)) h =
      (if ((replicaEntries bad good).filter
          (fun p => p.1.home == h)).isEmpty then none
       else some (homeOutputOf (((replicaEntries bad good).filter
         (fun p => p.1.home == h)).map (fun p => p.2)))) := by
  have hkeys : ((((replicaEntries bad good).foldl
      (fun a p => groupPush a p.1.home p.2) []).map
        (fun p => (p.1, homeOutputOf p.2))).map Prod.fst).Nodup := by
    have h1 := foldl_groupPush_keys_nodup (replicaEntries bad good) []
      (by simp)
    have h2 : ((((replicaEntries bad good).foldl
        (fun a p => groupPush a p.1.home p.2) []).map
          (fun p => (p.1, homeOutputOf p.2))).map Prod.fst) =
        (((replicaEntries bad good).foldl
          (fun a p => groupPush a p.1.home p.2) []).map Prod.fst) := by
      simp [List.map_map, Function.comp]
    rw [h2]
    exact h1
  have hhomes : homesOf (build_output_message bad good) =
      ((replicaEntries bad good).foldl
        (fun a p => groupPush a p.1.home p.2) []).map
          (fun p => (p.1, homeOutputOf p.2)) := by
    simp only [build_output_message, homesOf]
    exact hmCollect_eq_self _ hkeys
  rw [hhomes, hmGet_map homeOutputOf,
    foldl_groupPush_get_none (replicaEntries bad good) [] h rfl]
  by_cases he : ((replicaEntries bad good).filter
      (fun p => p.1.home == h)).isEmpty
  · rw [if_pos he, if_pos he]
    rfl
  · rw [if_neg he, if_neg he]
    rfl

/-- When the input channels are pairwise distinct, the replica names grouped
under any single home are pairwise distinct, so the final per-home `HashMap`
keeps every entry. -/
theorem filtered_replica_keys_nodup (bad : List (Channel × List Error))
    (good : List (Channel × TxOutcome)) (h : String)
    (hnodup : (bad.map (fun p => p.1) ++ good.map (fun p => p.1)).Nodup) :
    (((((replicaEntries bad good).filter (fun p => p.1.home == h)).map
      (fun p => p.2)).map (fun q => q.2)).map Prod.fst).Nodup := by
  have hchan : ((replicaEntries bad good).map (fun p => p.1)).Nodup := by
    rw [replicaEntries_channels]
    exact hnodup
  have hfltchan : (((replicaEntries bad good).filter
      (fun p => p.1.home == h)).map (fun p => p.1)).Nodup :=
    hchan.sublist (List.Sublist.map _ (List.filter_sublist _))
  have heq : (((((replicaEntries bad good).filter
      (fun p => p.1.home == h)).map (fun p => p.2)).map
        (fun q => q.2)).map Prod.fst) =
      ((((replicaEntries bad good).filter (fun p => p.1.home == h)).map
        (fun p => p.1)).map (fun c => c.replica)) := by
    simp only [List.map_map]
    apply List.map_congr_left
    intro p hp
    exact (replicaEntries_spec bad good p (List.mem_filter.mp hp).1).1
  rw [heq]
  apply List.Nodup.map_on ?_ hfltchan
  intro x hx y hy hxy
  obtain ⟨px, hpx, rfl⟩ := List.mem_map.mp hx
  obtain ⟨py, hpy, rfl⟩ := List.mem_map.mp hy
  apply channel_eq
  · have h1 : px.1.home = h := by simpa using (List.mem_filter.mp hpx).2
    have h2 : py.1.home = h := by simpa using (List.mem_filter.mp hpy).2
    rw [h1, h2]
  · exact hxy

/-- Every tagged replica entry of the inputs surfaces in the built document
under its channel's home, keyed by its replica name, with its replica
output — provided the input channels are pairwise distinct. -/
theorem build_output_entry_lookup (bad : List (Channel × List Error))
    (good : List (Channel × TxOutcome))
    (hnodup : (bad.map (fun p => p.1) ++ good.map (fun p => p.1)).Nodup)
    (e : Channel × (Bool × (String × ReplicaOutput)))
    (he : e ∈ replicaEntries bad good) :
    ∃ ho, hmGet (homesOf (build_output_message bad good)) e.1.home =
        some ho ∧
      hmGet ho.message.replicas e.2.2.1 = some e.2.2.2 := by
  have hefilter : e ∈ (replicaEntries bad good).filter
      (fun p => p.1.home == e.1.home) :=
    List.mem_filter.mpr ⟨he, by simp⟩
  have hne : ((replicaEntries bad good).filter
      (fun p => p.1.home == e.1.home)).isEmpty = false :=
    List.isEmpty_eq_false.mpr (List.ne_nil_of_mem hefilter)
  refine ⟨homeOutputOf ((((replicaEntries bad good).filter
    (fun p => p.1.home == e.1.home)).map (fun p => p.2))), ?_, ?_⟩
  · rw [build_output_get bad good e.1.home, if_neg (by simp [hne])]
  · have hkeysnd := filtered_replica_keys_nodup bad good e.1.home hnodup
    simp only [homeOutputOf]
    rw [hmCollect_eq_self _ hkeysnd]
    apply hmGet_of_mem_of_nodup _ _ _ hkeysnd
    have h1 : e.2 ∈ ((replicaEntries bad good).filter
        (fun p => p.1.home == e.1.home)).map (fun p => p.2) :=
      List.mem_map_of_mem _ hefilter
    exact List.mem_map_of_mem (fun q => q.2) h1

/-! ## C5 and C6 — the killswitch output document -/

/-- **C5 (amended).**  When the (home, replica) channels of `bad ++ good` are
pairwise distinct, a home's status in the document built by
`build_output_message` is `Success` if and only if every replica entry
grouped under that home has status `Success`.  (Without distinctness the
final per-home `HashMap` collapses duplicate replica names and the
right-to-left direction fails, see the counterexample.) -/
theorem build_output_home_status_iff (bad : List (Channel × List Error))
    (good : List (Channel × TxOutcome))
    (hnodup : (bad.map (fun p => p.1) ++ good.map (fun p => p.1)).Nodup)
    (h : String) (ho : HomeOutput)
    (hget : hmGet (homesOf (build_output_message bad good)) h = some ho) :
    ho.status = Status.Success ↔
      ∀ q ∈ ho.message.replicas, q.2.statusOf = Status.Success := by
  rw [build_output_get bad good h] at hget
  by_cases he : ((replicaEntries bad good).filter
      (fun p => p.1.home == h)).isEmpty = true
  · rw [if_pos he] at hget
    cases hget
  · rw [if_neg he] at hget
    injection hget with hho
    subst hho
    have hkeysnd := filtered_replica_keys_nodup bad good h hnodup
    have hrepl : (homeOutputOf (((replicaEntries bad good).filter
        (fun p => p.1.home == h)).map (fun p => p.2))).message.replicas =
        (((replicaEntries bad good).filter (fun p => p.1.home == h)).map
          (fun p => p.2)).map (fun q => q.2) := by
      simp only [homeOutputOf]
      exact hmCollect_eq_self _ hkeysnd
    have hstat : (homeOutputOf (((replicaEntries bad good).filter
        (fun p => p.1.home == h)).map (fun p => p.2))).status =
        (if ((((replicaEntries bad good).filter
          (fun p => p.1.home == h)).map (fun p => p.2)).all
            (fun q => q.1)) = true
         then Status.Success else Status.Error) := rfl
    constructor
    · intro hsucc q hq
      rw [hrepl] at hq
      obtain ⟨pe, hpe, rfl⟩ := List.mem_map.mp hq
      have hall : ((((replicaEntries bad good).filter
          (fun p => p.1.home == h)).map (fun p => p.2)).all
            (fun q => q.1)) = true := by
        by_contra hna
        rw [hstat, if_neg hna] at hsucc
        cases hsucc
      have hflag : pe.1 = true := List.all_eq_true.mp hall pe hpe
      obtain ⟨pf, hpf, rfl⟩ := List.mem_map.mp hpe
      have hspec := (replicaEntries_spec bad good pf
        (List.mem_filter.mp hpf).1).2
      rw [hspec, if_pos hflag]
    · intro hall'
      rw [hstat]
      have hall : ((((replicaEntries bad good).filter
          (fun p => p.1.home == h)).map (fun p => p.2)).all
            (fun q => q.1)) = true := by
        rw [List.all_eq_true]
        intro pe hpe
        obtain ⟨pf, hpf, rfl⟩ := List.mem_map.mp hpe
        have hq : pf.2.2 ∈ (homeOutputOf (((replicaEntries bad
            good).filter (fun p => p.1.home == h)).map
              (fun p => p.2))).message.replicas := by
          rw [hrepl]
          exact List.mem_map_of_mem (fun q => q.2)
            (List.mem_map_of_mem (fun p => p.2) hpf)
        have hs := hall' pf.2.2 hq
        have hspec := (replicaEntries_spec bad good pf
          (List.mem_filter.mp hpf).1).2
        by_cases hb : pf.2.1 = true
        · exact hb
        · exfalso
          rw [hspec, if_neg hb] at hs
          cases hs
      rw [if_pos hall]

/-- **C6 (amended).**  When the (home, replica) channels of `bad ++ good` are
pairwise distinct, every successful channel `(channel, tx)` of `good` appears
in the built document under `channel.home`, keyed by `channel.replica`, as a
`Success` entry carrying `tx.txid` and no message; and every failed channel
`(channel, errors)` of `bad` appears as an `Error` entry carrying no tx hash
and the `Display` renderings of its errors.  (Without distinctness a
duplicated (home, replica) pair is collapsed by the final `HashMap` and one
of its entries disappears, see the counterexample.) -/
theorem build_output_maps_every_channel (bad : List (Channel × List Error))
    (good : List (Channel × TxOutcome))
    (hnodup : (bad.map (fun p => p.1) ++ good.map (fun p => p.1)).Nodup) :
    (∀ p ∈ good, ∃ ho,
      hmGet (homesOf (build_output_message bad good)) p.1.home = some ho ∧
      hmGet ho.message.replicas p.1.replica =
        some (ReplicaOutput.Result Status.Success (some p.2.txid) none)) ∧
    (∀ p ∈ bad, ∃ ho,
      hmGet (homesOf (build_output_message bad good)) p.1.home = some ho ∧
      hmGet ho.message.replicas p.1.replica =
        some (ReplicaOutput.Result Status.Error none
          (some (p.2.map (fun e => e.display))))) := by
  constructor
  · intro p hp
    have he : (p.1, (true, (p.1.replica,
        ReplicaOutput.Result Status.Success (some p.2.txid) none))) ∈
        replicaEntries bad good := by
      simp only [replicaEntries]
      exact List.mem_append_right _ (List.mem_map_of_mem _ hp)
    exact build_output_entry_lookup bad good hnodup _ he
  · intro p hp
    have he : (p.1, (false, (p.1.replica,
        ReplicaOutput.Result Status.Error none
          (some (p.2.map (fun e => e.display)))))) ∈
        replicaEntries bad good := by
      simp only [replicaEntries]
      exact List.mem_append_left _ (List.mem_map_of_mem _ hp)
    exact build_output_entry_lookup bad good hnodup _ he

/-- **C5 (counterexample to the claim as stated).**  With the same channel
(home `h`, replica `r`) failed in `bad` and successful in `good`, the home's
status is `Error` (a failed flag is present) yet every replica entry grouped
under the home in the final document has status `Success`: the final
per-home `HashMap` collapsed the failed entry away (last insert wins). -/
theorem build_output_home_status_counterexample :
    hmGet (homesOf (build_output_message [(⟨"h", "r"⟩, [])]
        [(⟨"h", "r"⟩, ⟨1⟩)])) "h" =
      some { status := Status.Error
             message := ⟨[("r",
               ReplicaOutput.Result Status.Success (some 1) none)]⟩ } ∧
    ([("r", ReplicaOutput.Result Status.Success (some 1) none)].all
      (fun q => q.2.statusOf == Status.Success)) = true := by decide

/-- Witness for `build_output_home_status_iff` on one failed and one
successful channel under the same home. -/
theorem build_output_home_status_iff_witness :
    (([(⟨"h", "r1"⟩, [⟨"boom"⟩])] : List (Channel × List Error)).map
        (fun p => p.1) ++
      ([(⟨"h", "r2"⟩, ⟨7⟩)] : List (Channel × TxOutcome)).map
        (fun p => p.1)).Nodup ∧
    hmGet (homesOf (build_output_message [(⟨"h", "r1"⟩, [⟨"boom"⟩])]
        [(⟨"h", "r2"⟩, ⟨7⟩)])) "h" =
      some { status := Status.Error
             message := ⟨[("r1",
               ReplicaOutput.Result Status.Error none (some ["boom"])),
               ("r2", ReplicaOutput.Result Status.Success (some 7) none)]⟩ } ∧
    ({ status := Status.Error
       message := ⟨[("r1",
         ReplicaOutput.Result Status.Error none (some ["boom"])),
         ("r2", ReplicaOutput.Result Status.Success (some 7) none)]⟩ :
        HomeOutput }.status = Status.Success ↔
      ∀ q ∈ ({ status := Status.Error
               message := ⟨[("r1",
                 ReplicaOutput.Result Status.Error none (some ["boom"])),
                 ("r2", ReplicaOutput.Result Status.Success (some 7)
                   none)]⟩ : HomeOutput }).message.replicas,
        q.2.statusOf = Status.Success) :=
  ⟨by decide, by decide,
    build_output_home_status_iff [(⟨"h", "r1"⟩, [⟨"boom"⟩])]
      [(⟨"h", "r2"⟩, ⟨7⟩)] (by decide) "h" _ (by decide)⟩

/-- **C6 (counterexample to the claim as stated).**  Two successful channels
with the same (home, replica) pair but different transaction ids: the final
document holds exactly one home `h` whose only `r` entry carries the second
transaction id, so the first channel is not mapped to its entry — the
`HashMap` keyed by replica name keeps only the last insert. -/
theorem build_output_channel_counterexample :
    (homesOf (build_output_message []
        [(⟨"h", "r"⟩, ⟨1⟩), (⟨"h", "r"⟩, ⟨2⟩)])).map
      (fun p => (p.1, hmGet p.2.message.replicas "r")) =
      [("h", some (ReplicaOutput.Result Status.Success (some 2) none))] ∧
    (ReplicaOutput.Result Status.Success (some 2) none) ≠
      (ReplicaOutput.Result Status.Success (some 1) none) := by decide

/-- Witness for `build_output_maps_every_channel` on one failed and one
successful channel under the same home. -/
theorem build_output_maps_every_channel_witness :
    (([(⟨"h", "r1"⟩, [⟨"boom"⟩])] : List (Channel × List Error)).map
        (fun p => p.1) ++
      ([(⟨"h", "r2"⟩, ⟨7⟩)] : List (Channel × TxOutcome)).map
        (fun p => p.1)).Nodup ∧
    (∃ ho, hmGet (homesOf (build_output_message
        [(⟨"h", "r1"⟩, [⟨"boom"⟩])] [(⟨"h", "r2"⟩, ⟨7⟩)])) "h" = some ho ∧
      hmGet ho.message.replicas "r2" =
        some (ReplicaOutput.Result Status.Success (some 7) none)) :=
  ⟨by decide,
    (build_output_maps_every_channel [(⟨"h", "r1"⟩, [⟨"boom"⟩])]
      [(⟨"h", "r2"⟩, ⟨7⟩)] (by decide)).1 (⟨"h", "r2"⟩, ⟨7⟩) (by decide)⟩

end Spec2Proof
